import Mathlib

/-!
Shallow embedding of the btern balanced-ternary library and its T3
register-machine emulator (src/trit.py, src/integer.py, src/processor.py),
together with theorems settling the specification claims.

Conventions of the embedding:
 * a Python `Trit` is the inductive type `Trit` below;
 * a Python `Trits`/`Int` object is its list of trits, most significant
   first (`List Trit`); construction-time length coercion is `fitLength`;
 * Python machine integers are `Int` (ℤ); the double-precision
   `math.ceil(math.log(m, 3))` of `Int.order` is modelled two ways: the
   idealized exact `Nat.clog 3 m` (`order`, agreeing with the source
   wherever the floating-point computation is exact), and an abstract
   order oracle (`digitAtF`/`encodeAuxF`/`intOfIntF`) covering every
   value the floating-point computation could return, used to analyse
   the inputs on which the source's rounding goes wrong;
 * Python exceptions are modelled by `Except PyError`; the unbounded
   `while` loops of `Int.__divmod__` and `Processor.run` are given explicit
   fuel, and the theorems show the fuel bounds used are sufficient on the
   reachable domain.
-/

set_option linter.unusedVariables false

/-- The three balanced-ternary digit values `-`, `0`, `+` (src/trit.py `Trit`). -/
inductive Trit where
  | neg
  | zero
  | pos
deriving DecidableEq, Repr

/-- `Trit.__int__`: the integer equivalent of a trit (src/trit.py INTEGERS). -/
def Trit.toInt : Trit → Int
  | .neg => -1
  | .zero => 0
  | .pos => 1

/-- `Trit.__neg__` (src/trit.py lines 123-134). -/
def Trit.negT : Trit → Trit
  | .neg => .pos
  | .zero => .zero
  | .pos => .neg

/-- `Trit.__and__` (src/trit.py lines 173-184). -/
def Trit.andT (a b : Trit) : Trit :=
  if a = .neg ∨ b = .neg then .neg
  else if a = .pos ∧ b = .pos then .pos
  else .zero

/-- `Trit.__or__` (src/trit.py lines 186-197). -/
def Trit.orT (a b : Trit) : Trit :=
  if a = .pos ∨ b = .pos then .pos
  else if a = .neg ∧ b = .neg then .neg
  else .zero

/-- `Trit.__xor__` (src/trit.py lines 199-210). -/
def Trit.xorT (a b : Trit) : Trit :=
  if a = .zero ∨ b = .zero then .zero
  else if a ≠ b then .pos
  else .neg

/-- `Trit.add(other)` with the default carry (src/trit.py lines 220-230:
the `carry == TRIT_ZERO` branch of `Trit.add`). -/
def Trit.addNC (self other : Trit) : Trit × Trit :=
  if self = .zero then (other, .zero)
  else if other = .zero then (self, .zero)
  else if self ≠ other then (.zero, .zero)
  else (self.negT, self)

/-- `Trit.add(other, carry)` (src/trit.py lines 212-240).  The recursive
calls `self.add(carry)` / `other.add(carry)` use the default (zero) carry,
i.e. they are exactly `Trit.addNC`. -/
def Trit.add (self other carry : Trit) : Trit × Trit :=
  if carry = .zero then self.addNC other
  else if other = .zero then self.addNC carry
  else if self = .zero then other.addNC carry
  else if self ≠ other then (carry, .zero)
  else if self ≠ carry then (other, .zero)
  else (.zero, self)

/-- The signed numeric value of a least-significant-first trit list. -/
def valueR : List Trit → Int
  | [] => 0
  | t :: ts => t.toInt + 3 * valueR ts

/-- `Int.__int__` (src/integer.py lines 94-102): the signed numeric value of
a trit sequence, most significant trit first:
`Σ int(trit i) * 3 ^ (length - 1 - i)`. -/
def value (l : List Trit) : Int :=
  valueR l.reverse

/-- The glyph string of a trit sequence (src/trit.py `Trits.string`,
line 290).  `Trits.__hash__` (line 299) hashes exactly this string, so two
`Trits` hash alike iff their glyph strings agree; we use the string itself
as the hash key. -/
def glyphString (l : List Trit) : String :=
  String.mk (l.map fun t => match t with
    | .neg => '-'
    | .zero => '0'
    | .pos => '+')

/-- The length coercion of `Trits.__init__` (src/trit.py lines 281-289):
left-pad with zero trits when too short, keep only the rightmost `length`
trits when too long. -/
def fitLength (length : Nat) (l : List Trit) : List Trit :=
  if l.length < length then List.replicate (length - l.length) Trit.zero ++ l
  else l.drop (l.length - length)

/-- `Trits.match_length` (src/trit.py lines 345-358). -/
def matchLength (a b : List Trit) : List Trit × List Trit :=
  if a.length = b.length then (a, b)
  else if a.length < b.length then (fitLength b.length a, b)
  else (a, fitLength a.length b)

/-- The loop body of `Trits.cmp` on length-matched operands
(src/trit.py lines 392-397). -/
def cmpList : List Trit → List Trit → Int
  | x :: xs, y :: ys =>
      if x.toInt < y.toInt then -1
      else if x.toInt > y.toInt then 1
      else cmpList xs ys
  | _, _ => 0

/-- `Trits.cmp` (src/trit.py lines 390-397). -/
def cmpT (a b : List Trit) : Int :=
  let p := matchLength a b
  cmpList p.1 p.2

/-- `Trits.__eq__` (src/trit.py lines 405-406). -/
def tritsEq (a b : List Trit) : Bool :=
  cmpT a b = 0

/-- `Trits.__neg__` (src/trit.py lines 318-319). -/
def negTrits (l : List Trit) : List Trit :=
  l.map Trit.negT

/-- Modelled from the spec: `is_zero`, called on `Int` in
`Int.__divmod__` (src/integer.py lines 174, 178) and on the default
register in `T3.jump_zero`/`jump_nonzero` (src/processor.py lines 272,
278), is nowhere defined under src/.  The spec says a divisor "of numeric
value zero" and a register that "is numerically zero", so `is_zero` tests
whether the numeric value is zero. -/
def is_zero (l : List Trit) : Bool :=
  value l = 0

/-- `Int.is_negative` (src/integer.py lines 86-92): scan from the most
significant trit; the first nonzero trit decides. -/
def is_negative : List Trit → Bool
  | [] => false
  | .neg :: _ => true
  | .pos :: _ => false
  | .zero :: ts => is_negative ts

/-- The ripple-carry loop of `Int.__add__` (src/integer.py lines 121-127)
on least-significant-first lists: Python iterates `reversed(zip(a, b))`
threading the carry, then appends a nonzero final carry. -/
def addLSB : List Trit → List Trit → Trit → List Trit
  | x :: xs, y :: ys, c =>
      let rc := Trit.add x y c
      rc.1 :: addLSB xs ys rc.2
  | _, _, c => if c = .zero then [] else [c]

/-- `Int.__add__` (src/integer.py lines 113-128). -/
def addInts (a b : List Trit) : List Trit :=
  let p := matchLength a b
  (addLSB p.1.reverse p.2.reverse .zero).reverse

/-- `Int.__sub__` (src/integer.py lines 130-132): `a + (-b)`. -/
def subInts (a b : List Trit) : List Trit :=
  addInts a (negTrits b)

/-- The errors this embedding distinguishes.  `zeroDivision` is Python's
`ZeroDivisionError`, `badOpcode`/`programTooLong` are the `ValueError`s of
`T3.execute` and `T3.set_program`; `fuelExhausted` marks embedding fuel
running out (shown unreachable on the inputs of interest). -/
inductive PyError where
  | zeroDivision
  | badOpcode
  | programTooLong
  | fuelExhausted
deriving DecidableEq, Repr

/-- The repeated-subtraction loop of `Int.__divmod__` (src/integer.py lines
193-198): `while remain >= other: remain -= other; quotient += 1`.  Fuel
bounds the iteration count; `value remain + 1` iterations always suffice
when `value other > 0`. -/
def divmodLoop : Nat → List Trit → List Trit → List Trit → List Trit × List Trit
  | 0, _, remain, quotient => (quotient, remain)
  | fuel + 1, other, remain, quotient =>
      if 0 ≤ cmpT remain other then
        divmodLoop fuel other (subInts remain other) (addInts quotient [.pos])
      else
        (quotient, remain)

/-- `Int.__divmod__` (src/integer.py lines 148-198).  The sign-handling
recursion has depth at most 3, so fuel 3 suffices; the subtraction loop is
entered with a non-negative dividend and positive divisor, so loop fuel
`value self + 1` suffices. -/
def divmodFuel : Nat → List Trit → List Trit → Except PyError (List Trit × List Trit)
  | 0, _, _ => .error .fuelExhausted
  | fuel + 1, self, other =>
      if is_zero other then .error .zeroDivision
      else if is_zero self then .ok ([.zero], [.zero])
      else if tritsEq other [.pos] then .ok (self, [.zero])
      else if tritsEq other [.neg] then .ok (negTrits self, [.zero])
      else if is_negative other then
        (divmodFuel fuel self (negTrits other)).map
          fun qr => (negTrits qr.1, qr.2)
      else if is_negative self then
        (divmodFuel fuel (negTrits self) other).map
          fun qr => (negTrits qr.1, negTrits qr.2)
      else
        .ok (divmodLoop ((value self).toNat + 1) other self [.zero])

/-- `Int.__divmod__` at its (sufficient) fuel. -/
def divmodInt (a b : List Trit) : Except PyError (List Trit × List Trit) :=
  divmodFuel 3 a b

/-- `Int.__floordiv__` (src/integer.py lines 200-206). -/
def floordivInt (a b : List Trit) : Except PyError (List Trit) :=
  (divmodInt a b).map fun qr => qr.1

/-- `Int.__mod__` (src/integer.py lines 208-213). -/
def modInt (a b : List Trit) : Except PyError (List Trit) :=
  (divmodInt a b).map fun qr => qr.2

/-- `Int.order` (src/integer.py lines 81-84).  The source computes
`int(math.ceil(math.log(2 * abs(n), 3)))` in IEEE binary64 double
precision.  This definition is the idealized exact value
`ceil(log3(2*|n|))` (`Nat.clog 3`); the source agrees with it wherever
the floating-point computation rounds exactly, but once `2*|n|` is within
double-rounding distance of a power `3^k` with `3^k > 2^54` the source
can return a different (wrong) count.  `digitAtF`/`encodeAuxF`/
`intOfIntF` below abstract the order computation as an oracle so that
every behaviour the floating-point computation can have is covered
(claim C2). -/
def order (n : Int) : Nat :=
  Nat.clog 3 (2 * n.natAbs)

/-- The digit chosen by the encoding loop of `Int.__init__`
(src/integer.py lines 68-74) at place value `3 ^ power`. -/
def digitAt (power : Nat) (n : Int) : Trit :=
  if n = 0 ∨ order n ≤ power then .zero
  else if n < 0 then .neg
  else .pos

/-- The encoding loop of `Int.__init__` (src/integer.py lines 67-77),
producing the digits for place values `3 ^ power` down to `3 ^ 0`. -/
def encodeAux : Nat → Int → List Trit
  | 0, n => [digitAt 0 n]
  | power + 1, n =>
      let d := digitAt (power + 1) n
      d :: encodeAux power (n - d.toInt * 3 ^ (power + 1))

/-- `Int.__init__` from a machine integer, without a length argument
(src/integer.py lines 60-78), with the idealized exact `order`. -/
def intOfInt (n : Int) : List Trit :=
  if n = 0 then [.zero] else encodeAux (order n - 1) n

/-- `digitAt` with the order computation abstracted as an oracle
`f : Int → Nat`, standing for whatever trit counts the source's
double-precision `Int.order` actually returns.  `digitAtF order` is
definitionally `digitAt`. -/
def digitAtF (f : Int → Nat) (power : Nat) (n : Int) : Trit :=
  if n = 0 ∨ f n ≤ power then .zero
  else if n < 0 then .neg
  else .pos

/-- The encoding loop of `Int.__init__` (src/integer.py lines 67-77) with
the order oracle `f` (see `digitAtF`); `encodeAuxF order` coincides with
`encodeAux` (theorem `encodeAuxF_order`). -/
def encodeAuxF (f : Int → Nat) : Nat → Int → List Trit
  | 0, n => [digitAtF f 0 n]
  | power + 1, n =>
      let d := digitAtF f (power + 1) n
      d :: encodeAuxF f power (n - d.toInt * 3 ^ (power + 1))

/-- `Int.__init__` from a machine integer with the order oracle `f`:
`power` starts at `f n - 1` and the loop runs `while power >= 0`, so when
`f n = 0` the loop body never runs and the trit list is empty.  That case
is unreachable for the exact `order` (positive on nonzero n), and
`intOfIntF order = intOfInt` (theorem `intOfIntF_order`), but it is
reachable for a mis-rounded oracle. -/
def intOfIntF (f : Int → Nat) (n : Int) : List Trit :=
  if n = 0 then [.zero]
  else
    match f n with
    | 0 => []
    | power + 1 => encodeAuxF f power n

/-- `UInt.__int__` on a least-significant-first list
(src/integer.py lines 240-248): digit values are `int(trit) + 1`. -/
def uvalueR : List Trit → Int
  | [] => 0
  | t :: ts => (t.toInt + 1) + 3 * uvalueR ts

/-- `UInt.__int__` (src/integer.py lines 240-248). -/
def uvalue (l : List Trit) : Int :=
  uvalueR l.reverse

/-- A 3-trit register address.  The `T3.registers` dict (src/processor.py
lines 181-185) has exactly the 27 three-trit sequences as keys; its lookup
compares the glyph strings (`Trits.__hash__`/`__eq__`), which on two
length-3 sequences agree exactly when the trits agree. -/
def Addr : Type := Trit × Trit × Trit
deriving DecidableEq

/-- The address of the default register `dr` (src/processor.py line 186). -/
def drAddr : Addr := (.zero, .zero, .zero)

/-- The 3-trit operand of an instruction read as a register address
(`T3.get_operand`, src/processor.py lines 232-234, on the 6-trit `ir`).
On a list that is not exactly 3 trits long the Python dict lookup would
raise `KeyError`; that never happens since `ir` has fixed length 6. -/
def addrOf (l : List Trit) : Addr :=
  match l with
  | [a, b, c] => (a, b, c)
  | _ => drAddr

/-- The full machine state of a `T3` processor (src/processor.py):
`ip` (3 trits), `ir` (6 trits), the 27 general registers (6 trits each),
the 162-trit program memory, the `outputs` list and the `stop` flag. -/
structure T3State where
  ip : List Trit
  ir : List Trit
  regs : Addr → List Trit
  program : List Trit
  outputs : List String
  stop : Bool

/-- `Register.put` (src/processor.py lines 49-50) for a 6-trit general
register: coerce the content to the fixed register length. -/
def putReg (s : T3State) (a : Addr) (content : List Trit) : T3State :=
  { s with regs := fun x => if x = a then fitLength 6 content else s.regs x }

/-- `T3.reset` (src/processor.py lines 191-196): `ip.put(ADDRESS_MIN)`
with `ADDRESS_MIN = '---'`, clear `ir`, clear `outputs`, clear every
general register.  Program memory is not touched. -/
def resetT3 (s : T3State) : T3State :=
  { s with
    ip := fitLength 3 [.neg, .neg, .neg]
    ir := fitLength 6 []
    outputs := []
    regs := fun _ => fitLength 6 [] }

/-- `T3.fetch` (src/processor.py lines 198-201): the program-memory offset
is the unsigned value of `ip` times the instruction size 6; the slice of
that width is copied into `ir`. -/
def fetchT3 (s : T3State) : T3State :=
  let address := (uvalue s.ip).toNat * 6
  { s with ir := fitLength 6 ((s.program.drop address).take 6) }

/-- `T3.increment` (src/processor.py lines 203-204):
`ip.put(Int(ip) + Int('+'))`, the sum written back through the fixed-width
3-trit register. -/
def incrementT3 (s : T3State) : T3State :=
  { s with ip := fitLength 3 (addInts s.ip [.pos]) }

/-- `T3.get_operand` (src/processor.py lines 232-234). -/
def getOperand (data : List Trit) : List Trit :=
  data.drop 3

/-- `T3.halt` via `Processor.halt` (src/processor.py lines 124-126). -/
def haltT3 (s : T3State) (data : List Trit) : T3State :=
  { s with stop := true }

/-- `T3.load` (src/processor.py lines 240-247). -/
def loadT3 (s : T3State) (data : List Trit) : T3State :=
  putReg s drAddr (s.regs (addrOf (getOperand data)))

/-- `T3.save` (src/processor.py lines 249-256). -/
def saveT3 (s : T3State) (data : List Trit) : T3State :=
  putReg s (addrOf (getOperand data)) (s.regs drAddr)

/-- `T3.add` (src/processor.py lines 258-262). -/
def addT3 (s : T3State) (data : List Trit) : T3State :=
  putReg s drAddr (addInts (s.regs drAddr) (s.regs (addrOf (getOperand data))))

/-- `T3.sub` (src/processor.py lines 264-268). -/
def subT3 (s : T3State) (data : List Trit) : T3State :=
  putReg s drAddr (subInts (s.regs drAddr) (s.regs (addrOf (getOperand data))))

/-- `T3.jump_zero` (src/processor.py lines 270-274): if the default
register is numerically zero, `ip.put(operand)`. -/
def jumpZeroT3 (s : T3State) (data : List Trit) : T3State :=
  if is_zero (s.regs drAddr) then
    { s with ip := fitLength 3 (getOperand data) }
  else s

/-- `T3.jump_nonzero` (src/processor.py lines 276-280). -/
def jumpNonzeroT3 (s : T3State) (data : List Trit) : T3State :=
  if ¬ is_zero (s.regs drAddr) then
    { s with ip := fitLength 3 (getOperand data) }
  else s

/-- `T3.clear` (src/processor.py lines 282-284): `Register.clear` is
`put([])`, i.e. all-zero after the length coercion. -/
def clearT3 (s : T3State) (data : List Trit) : T3State :=
  putReg s (addrOf (getOperand data)) []

/-- `T3.output` (src/processor.py lines 286-294): append the glyph string
of the addressed register to `outputs`. -/
def outputT3 (s : T3State) (data : List Trit) : T3State :=
  { s with outputs := s.outputs ++ [glyphString (s.regs (addrOf (getOperand data)))] }

/-- `T3.put_low` (src/processor.py lines 296-299):
`dr[-len(operand):] = operand`. -/
def putLowT3 (s : T3State) (data : List Trit) : T3State :=
  let operand := getOperand data
  let dr := s.regs drAddr
  { s with regs := fun x =>
      if x = drAddr then dr.take (dr.length - operand.length) ++ operand
      else s.regs x }

/-- `T3.put_high` (src/processor.py lines 301-304):
`dr[:len(operand)] = operand`. -/
def putHighT3 (s : T3State) (data : List Trit) : T3State :=
  let operand := getOperand data
  let dr := s.regs drAddr
  { s with regs := fun x =>
      if x = drAddr then operand ++ dr.drop operand.length
      else s.regs x }

/-- Modelled from the spec: `Trits.__lshift__`, used by `T3.shift_left`
(src/processor.py line 313) and exercised by src/test.py test_lshift, is
nowhere defined under src/.  The spec says shift_left moves the contents
"one position toward higher order (multiply-by-3-like, vacated low trit
becomes zero)", so `x << 1` appends one zero trit on the right. -/
def shlTrits (l : List Trit) : List Trit :=
  l ++ [.zero]

/-- Modelled from the spec: `Trits.__rshift__`, used by `T3.shift_right`
(src/processor.py line 322) and exercised by src/test.py test_rshift, is
nowhere defined under src/.  The spec says shift_right moves the contents
"one position toward lower order (divide-by-3-like, highest trit dropped)"
while the register write-back left-pads with zero, so `x >> 1` drops the
rightmost trit. -/
def shrTrits (l : List Trit) : List Trit :=
  l.take (l.length - 1)

/-- `T3.shift_left` (src/processor.py lines 306-313). -/
def shiftLeftT3 (s : T3State) (data : List Trit) : T3State :=
  putReg s drAddr (shlTrits (s.regs (addrOf (getOperand data))))

/-- `T3.shift_right` (src/processor.py lines 315-322). -/
def shiftRightT3 (s : T3State) (data : List Trit) : T3State :=
  putReg s drAddr (shrTrits (s.regs (addrOf (getOperand data))))

/-- `Trits.__and__` (src/trit.py lines 360-363). -/
def andTrits (a b : List Trit) : List Trit :=
  let p := matchLength a b
  List.zipWith Trit.andT p.1 p.2

/-- `Trits.__or__` (src/trit.py lines 365-368). -/
def orTrits (a b : List Trit) : List Trit :=
  let p := matchLength a b
  List.zipWith Trit.orT p.1 p.2

/-- `Trits.__xor__` (src/trit.py lines 370-373). -/
def xorTrits (a b : List Trit) : List Trit :=
  let p := matchLength a b
  List.zipWith Trit.xorT p.1 p.2

/-- `T3.log_and` (src/processor.py lines 324-331). -/
def logAndT3 (s : T3State) (data : List Trit) : T3State :=
  putReg s drAddr (andTrits (s.regs drAddr) (s.regs (addrOf (getOperand data))))

/-- `T3.log_or` (src/processor.py lines 333-340). -/
def logOrT3 (s : T3State) (data : List Trit) : T3State :=
  putReg s drAddr (orTrits (s.regs drAddr) (s.regs (addrOf (getOperand data))))

/-- `T3.log_xor` (src/processor.py lines 342-349). -/
def logXorT3 (s : T3State) (data : List Trit) : T3State :=
  putReg s drAddr (xorTrits (s.regs drAddr) (s.regs (addrOf (getOperand data))))

/-- `T3.log_not` (src/processor.py lines 351-357). -/
def logNotT3 (s : T3State) (data : List Trit) : T3State :=
  putReg s drAddr (negTrits (s.regs (addrOf (getOperand data))))

/-- The opcode table `T3.INSTRUCTIONS` (src/processor.py lines 150-168),
as built by `Processor.__init__` (lines 98-101): a partial map from 3-trit
opcodes to handlers. -/
def lookupOpcode (op : List Trit) : Option (T3State → List Trit → T3State) :=
  if op = [.neg, .neg, .pos] then some logNotT3
  else if op = [.neg, .pos, .neg] then some logOrT3
  else if op = [.neg, .pos, .zero] then some shiftRightT3
  else if op = [.neg, .pos, .pos] then some putLowT3
  else if op = [.zero, .neg, .neg] then some clearT3
  else if op = [.zero, .neg, .zero] then some jumpNonzeroT3
  else if op = [.zero, .neg, .pos] then some subT3
  else if op = [.zero, .zero, .neg] then some loadT3
  else if op = [.zero, .zero, .zero] then some haltT3
  else if op = [.zero, .zero, .pos] then some saveT3
  else if op = [.zero, .pos, .neg] then some addT3
  else if op = [.zero, .pos, .zero] then some jumpZeroT3
  else if op = [.zero, .pos, .pos] then some outputT3
  else if op = [.pos, .neg, .neg] then some putHighT3
  else if op = [.pos, .neg, .zero] then some shiftLeftT3
  else if op = [.pos, .neg, .pos] then some logAndT3
  else if op = [.pos, .pos, .neg] then some logXorT3
  else none

/-- `T3.execute` (src/processor.py lines 206-216): the first 3 trits of
`ir` select the handler; an unregistered opcode raises ValueError; the
handler receives the full `ir` as its data. -/
def executeT3 (s : T3State) : Except PyError T3State :=
  match lookupOpcode (s.ir.take 3) with
  | none => .error .badOpcode
  | some handler => .ok (handler s s.ir)

/-- One fetch/increment/execute cycle (the body of `Processor.run`,
src/processor.py lines 119-122). -/
def stepT3 (s : T3State) : Except PyError T3State :=
  executeT3 (incrementT3 (fetchT3 s))

/-- The `while not self.stop` loop of `Processor.run` (src/processor.py
lines 119-122), with fuel bounding the number of cycles. -/
def runGo : Nat → T3State → Except PyError T3State
  | 0, _ => .error .fuelExhausted
  | fuel + 1, s =>
      if s.stop then .ok s
      else
        match stepT3 s with
        | .ok s2 => runGo fuel s2
        | .error e => .error e

/-- `Processor.run` (src/processor.py lines 116-122): clear the stop flag,
then cycle until it is set. -/
def runT3 (fuel : Nat) (s : T3State) : Except PyError T3State :=
  runGo fuel { s with stop := false }

/-- `T3.set_program` (src/processor.py lines 218-230): reject programs
longer than the 162-trit memory; otherwise clear the whole program memory
and overwrite its prefix with the program. -/
def setProgram (s : T3State) (p : List Trit) : Except PyError T3State :=
  if p.length > 162 then .error .programTooLong
  else .ok { s with program := p ++ (List.replicate 162 Trit.zero).drop p.length }

/-- The state of a freshly constructed `T3` processor after `reset`
(src/processor.py lines 170-196), used as a concrete evaluation point. -/
def state0 : T3State :=
  { ip := [.neg, .neg, .neg]
    ir := List.replicate 6 .zero
    regs := fun _ => List.replicate 6 .zero
    program := List.replicate 162 .zero
    outputs := []
    stop := false }

theorem valueR_concat (xs : List Trit) (d : Trit) :
    valueR (xs ++ [d]) = valueR xs + 3 ^ xs.length * d.toInt := by
  induction xs with
  | nil => simp [valueR]
  | cons t ts ih => simp [valueR, ih]; ring

theorem value_cons (d : Trit) (l : List Trit) :
    value (d :: l) = d.toInt * 3 ^ l.length + value l := by
  simp [value, List.reverse_cons, valueR_concat]
  ring

theorem value_replicate_zero_append (k : Nat) (l : List Trit) :
    value (List.replicate k Trit.zero ++ l) = value l := by
  induction k with
  | zero => simp
  | succ n ih =>
      rw [List.replicate_succ, List.cons_append, value_cons, ih]
      simp [Trit.toInt]

theorem fitLength_length (L : Nat) (l : List Trit) :
    (fitLength L l).length = L := by
  unfold fitLength
  split <;> simp <;> omega

theorem fitLength_of_length_eq {L : Nat} {l : List Trit} (h : l.length = L) :
    fitLength L l = l := by
  unfold fitLength
  rw [h]
  simp

theorem value_fitLength {L : Nat} {l : List Trit} (h : l.length ≤ L) :
    value (fitLength L l) = value l := by
  unfold fitLength
  split
  · exact value_replicate_zero_append _ _
  · have : l.length = L := by omega
    simp [this]

theorem matchLength_spec (a b : List Trit) :
    (matchLength a b).1.length = (matchLength a b).2.length ∧
      value (matchLength a b).1 = value a ∧ value (matchLength a b).2 = value b := by
  unfold matchLength
  split
  · simp [*]
  · split
    · simp [fitLength_length, value_fitLength (by omega : a.length ≤ b.length)]
    · simp [fitLength_length, value_fitLength (by omega : b.length ≤ a.length)]

theorem valueR_bound (l : List Trit) : 2 * (valueR l).natAbs < 3 ^ l.length := by
  induction l with
  | nil => simp [valueR]
  | cons t ts ih =>
      have hp : (3:Nat) ^ (t :: ts).length = 3 * 3 ^ ts.length := by
        rw [List.length_cons, pow_succ]; ring
      rw [hp]
      show 2 * (Trit.toInt t + 3 * valueR ts).natAbs < 3 * 3 ^ ts.length
      rcases t <;> simp only [Trit.toInt] <;> omega

theorem value_bound (l : List Trit) : 2 * (value l).natAbs < 3 ^ l.length := by
  have := valueR_bound l.reverse
  rwa [List.length_reverse] at this

theorem value_neg_lt (l : List Trit) : -(3 ^ l.length : Int) < 2 * value l := by
  have h := value_bound l
  have hc : ((3:Nat) ^ l.length : Int) = (3:Int) ^ l.length := by push_cast; ring
  omega

theorem value_lt_pow (l : List Trit) : 2 * value l < (3 ^ l.length : Int) := by
  have h := value_bound l
  have hc : ((3:Nat) ^ l.length : Int) = (3:Int) ^ l.length := by push_cast; ring
  omega

theorem cmpList_cons_same (x : Trit) (xs ys : List Trit) :
    cmpList (x :: xs) (x :: ys) = cmpList xs ys := by
  simp [cmpList]

theorem value_cons_lt_same (x : Trit) {xs ys : List Trit}
    (hlen : xs.length = ys.length) (h : value xs < value ys) :
    value (x :: xs) < value (x :: ys) := by
  rw [value_cons, value_cons, hlen]
  omega

theorem value_cons_lt {x y : Trit} {xs ys : List Trit}
    (hlen : xs.length = ys.length) (hxy : x.toInt < y.toInt) :
    value (x :: xs) < value (y :: ys) := by
  rw [value_cons, value_cons, hlen]
  have hP : (0:Int) ≤ 3 ^ ys.length := by positivity
  have h1 : (x.toInt + 1) * 3 ^ ys.length ≤ y.toInt * 3 ^ ys.length :=
    mul_le_mul_of_nonneg_right (by omega) hP
  have h2 := value_lt_pow xs
  have h3 := value_neg_lt ys
  rw [hlen] at h2
  linarith [h1, h2, h3]

theorem cmpList_spec (xs : List Trit) : ∀ ys : List Trit, xs.length = ys.length →
    (cmpList xs ys = 0 ∧ xs = ys) ∨
      (cmpList xs ys = -1 ∧ value xs < value ys) ∨
      (cmpList xs ys = 1 ∧ value ys < value xs) := by
  induction xs with
  | nil =>
      intro ys h
      have hnil : ys = [] := by
        cases ys with
        | nil => rfl
        | cons y ys => simp at h
      subst hnil
      left
      exact ⟨rfl, rfl⟩
  | cons x xs ih =>
      intro ys h
      cases ys with
      | nil => simp at h
      | cons y ys =>
          have hlen : xs.length = ys.length := by simpa using h
          rcases x <;> rcases y
          case neg.zero =>
            exact Or.inr (Or.inl ⟨by simp [cmpList, Trit.toInt],
              value_cons_lt hlen (by decide)⟩)
          case neg.pos =>
            exact Or.inr (Or.inl ⟨by simp [cmpList, Trit.toInt],
              value_cons_lt hlen (by decide)⟩)
          case zero.pos =>
            exact Or.inr (Or.inl ⟨by simp [cmpList, Trit.toInt],
              value_cons_lt hlen (by decide)⟩)
          case zero.neg =>
            exact Or.inr (Or.inr ⟨by simp [cmpList, Trit.toInt],
              value_cons_lt hlen.symm (by decide)⟩)
          case pos.neg =>
            exact Or.inr (Or.inr ⟨by simp [cmpList, Trit.toInt],
              value_cons_lt hlen.symm (by decide)⟩)
          case pos.zero =>
            exact Or.inr (Or.inr ⟨by simp [cmpList, Trit.toInt],
              value_cons_lt hlen.symm (by decide)⟩)
          case neg.neg =>
            rcases ih ys hlen with ⟨h0, rfl⟩ | ⟨h0, hv⟩ | ⟨h0, hv⟩
            · exact Or.inl ⟨by rw [cmpList_cons_same, h0], rfl⟩
            · exact Or.inr (Or.inl ⟨by rw [cmpList_cons_same, h0],
                value_cons_lt_same _ hlen hv⟩)
            · exact Or.inr (Or.inr ⟨by rw [cmpList_cons_same, h0],
                value_cons_lt_same _ hlen.symm hv⟩)
          case zero.zero =>
            rcases ih ys hlen with ⟨h0, rfl⟩ | ⟨h0, hv⟩ | ⟨h0, hv⟩
            · exact Or.inl ⟨by rw [cmpList_cons_same, h0], rfl⟩
            · exact Or.inr (Or.inl ⟨by rw [cmpList_cons_same, h0],
                value_cons_lt_same _ hlen hv⟩)
            · exact Or.inr (Or.inr ⟨by rw [cmpList_cons_same, h0],
                value_cons_lt_same _ hlen.symm hv⟩)
          case pos.pos =>
            rcases ih ys hlen with ⟨h0, rfl⟩ | ⟨h0, hv⟩ | ⟨h0, hv⟩
            · exact Or.inl ⟨by rw [cmpList_cons_same, h0], rfl⟩
            · exact Or.inr (Or.inl ⟨by rw [cmpList_cons_same, h0],
                value_cons_lt_same _ hlen hv⟩)
            · exact Or.inr (Or.inr ⟨by rw [cmpList_cons_same, h0],
                value_cons_lt_same _ hlen.symm hv⟩)

theorem cmpT_trichotomy (a b : List Trit) :
    (cmpT a b = 0 ∧ value a = value b) ∨
      (cmpT a b = -1 ∧ value a < value b) ∨
      (cmpT a b = 1 ∧ value b < value a) := by
  obtain ⟨hlen, hva, hvb⟩ := matchLength_spec a b
  have hs := cmpList_spec (matchLength a b).1 (matchLength a b).2 hlen
  unfold cmpT
  rcases hs with ⟨h0, heq⟩ | ⟨h0, hv⟩ | ⟨h0, hv⟩
  · exact Or.inl ⟨h0, by rw [← hva, ← hvb, heq]⟩
  · exact Or.inr (Or.inl ⟨h0, by rw [← hva, ← hvb]; exact hv⟩)
  · exact Or.inr (Or.inr ⟨h0, by rw [← hva, ← hvb]; exact hv⟩)

theorem cmpT_eq_zero_iff (a b : List Trit) : cmpT a b = 0 ↔ value a = value b := by
  rcases cmpT_trichotomy a b with ⟨h0, hv⟩ | ⟨h0, hv⟩ | ⟨h0, hv⟩
  · exact ⟨fun _ => hv, fun _ => h0⟩
  · rw [h0]
    constructor
    · intro h; omega
    · intro h; omega
  · rw [h0]
    constructor
    · intro h; omega
    · intro h; omega

theorem cmpT_nonneg_iff (a b : List Trit) : 0 ≤ cmpT a b ↔ value b ≤ value a := by
  rcases cmpT_trichotomy a b with ⟨h0, hv⟩ | ⟨h0, hv⟩ | ⟨h0, hv⟩ <;>
    rw [h0] <;> constructor <;> intro h <;> omega

theorem tritsEq_iff_value (a b : List Trit) :
    tritsEq a b = true ↔ value a = value b := by
  unfold tritsEq
  rw [decide_eq_true_iff]
  exact cmpT_eq_zero_iff a b

theorem is_zero_iff (l : List Trit) : is_zero l = true ↔ value l = 0 := by
  unfold is_zero
  exact decide_eq_true_iff

theorem is_negative_iff (l : List Trit) : is_negative l = true ↔ value l < 0 := by
  induction l with
  | nil => simp [is_negative, value, valueR]
  | cons t ts ih =>
      have hb := value_bound ts
      have hc : ((3:Nat) ^ ts.length : Int) = (3:Int) ^ ts.length := by push_cast; ring
      rcases t
      · simp only [is_negative, value_cons, Trit.toInt]
        constructor
        · intro _
          omega
        · intro _
          trivial
      · simp only [is_negative, value_cons, Trit.toInt]
        rw [ih]
        constructor <;> intro h <;> omega
      · simp only [is_negative, value_cons, Trit.toInt]
        constructor
        · intro h
          exact absurd h (by simp)
        · intro h
          omega

theorem trit_add_spec (a b c : Trit) :
    (Trit.add a b c).1.toInt + 3 * (Trit.add a b c).2.toInt =
      a.toInt + b.toInt + c.toInt := by
  rcases a <;> rcases b <;> rcases c <;> decide

theorem addLSB_value (xs : List Trit) : ∀ (ys : List Trit) (c : Trit),
    xs.length = ys.length →
    valueR (addLSB xs ys c) = valueR xs + valueR ys + c.toInt := by
  induction xs with
  | nil =>
      intro ys c h
      have hnil : ys = [] := by
        cases ys with
        | nil => rfl
        | cons y ys => simp at h
      subst hnil
      unfold addLSB
      split
      · simp [valueR, *, Trit.toInt]
      · rename_i hc
        simp only [valueR]
        omega
  | cons x xs ih =>
      intro ys c h
      cases ys with
      | nil => simp at h
      | cons y ys =>
          have hlen : xs.length = ys.length := by simpa using h
          have hs := trit_add_spec x y c
          simp only [addLSB, valueR]
          rw [ih ys (Trit.add x y c).2 hlen]
          omega

theorem value_reverse_valueR (l : List Trit) : value l.reverse = valueR l := by
  unfold value
  rw [List.reverse_reverse]

theorem value_addInts (a b : List Trit) :
    value (addInts a b) = value a + value b := by
  obtain ⟨hlen, hva, hvb⟩ := matchLength_spec a b
  unfold addInts
  rw [value_reverse_valueR,
    addLSB_value _ _ _ (by simp [hlen]), ← value_reverse_valueR, ← value_reverse_valueR]
  simp only [List.reverse_reverse]
  rw [hva, hvb]
  simp [Trit.toInt]

theorem valueR_map_neg (l : List Trit) : valueR (l.map Trit.negT) = - valueR l := by
  induction l with
  | nil => simp [valueR]
  | cons t ts ih =>
      have : (Trit.negT t).toInt = - t.toInt := by rcases t <;> decide
      simp only [List.map_cons, valueR, ih, this]
      ring

theorem value_negTrits (l : List Trit) : value (negTrits l) = - value l := by
  unfold negTrits value
  rw [← List.map_reverse, valueR_map_neg]

theorem value_subInts (a b : List Trit) :
    value (subInts a b) = value a - value b := by
  unfold subInts
  rw [value_addInts, value_negTrits]
  ring

theorem value_single_pos : value [Trit.pos] = 1 := by decide

theorem value_single_zero : value [Trit.zero] = 0 := by decide

theorem value_single_neg : value [Trit.neg] = -1 := by decide

theorem divmodLoop_spec (fuel : Nat) :
    ∀ (other remain quotient : List Trit),
    0 < value other → 0 ≤ value remain → (value remain).toNat < fuel →
    value (divmodLoop fuel other remain quotient).1 * value other +
        value (divmodLoop fuel other remain quotient).2 =
      value quotient * value other + value remain ∧
      0 ≤ value (divmodLoop fuel other remain quotient).2 ∧
      value (divmodLoop fuel other remain quotient).2 < value other := by
  induction fuel with
  | zero =>
      intro other remain quotient hpos hrem hfuel
      omega
  | succ f ih =>
      intro other remain quotient hpos hrem hfuel
      by_cases hguard : 0 ≤ cmpT remain other
      · have hge : value other ≤ value remain := (cmpT_nonneg_iff remain other).mp hguard
        have hsub : value (subInts remain other) = value remain - value other :=
          value_subInts remain other
        have hq : value (addInts quotient [Trit.pos]) = value quotient + 1 := by
          rw [value_addInts, value_single_pos]
        have h1 : 0 ≤ value (subInts remain other) := by omega
        have h2 : (value (subInts remain other)).toNat < f := by omega
        have := ih other (subInts remain other) (addInts quotient [Trit.pos]) hpos h1 h2
        simp only [divmodLoop, if_pos hguard]
        refine ⟨?_, this.2.1, this.2.2⟩
        rw [this.1, hq, hsub]
        ring
      · have hlt : value remain < value other := by
          have := (cmpT_nonneg_iff remain other).not.mp hguard
          omega
        simp only [divmodLoop, if_neg hguard]
        exact ⟨by trivial, hrem, hlt⟩

theorem neg_tmod_left (a b : Int) : (-a).tmod b = -(a.tmod b) := by
  rw [Int.tmod_def, Int.tmod_def, Int.neg_tdiv]
  ring

theorem divmodFuel_nonneg_nonneg (fuel : Nat) (a b : List Trit)
    (hfuel : 1 ≤ fuel) (ha : is_negative a = false) (hb : is_negative b = false)
    (hbz : value b ≠ 0) :
    ∃ q r, divmodFuel fuel a b = .ok (q, r) ∧
      value q = (value a).tdiv (value b) ∧ value r = (value a).tmod (value b) := by
  obtain ⟨f, rfl⟩ : ∃ f, fuel = f + 1 := ⟨fuel - 1, by omega⟩
  have hbpos : 0 < value b := by
    have := (is_negative_iff b).not.mp (by simp [hb])
    omega
  have hanneg : 0 ≤ value a := by
    have := (is_negative_iff a).not.mp (by simp [ha])
    omega
  have hbz' : is_zero b = false := by
    rw [Bool.eq_false_iff, Ne, is_zero_iff]
    omega
  by_cases haz : value a = 0
  · refine ⟨[Trit.zero], [Trit.zero], ?_, ?_, ?_⟩
    · simp [divmodFuel, hbz', is_zero_iff, haz]
    · rw [value_single_zero, haz, Int.zero_tdiv]
    · rw [value_single_zero, haz, Int.zero_tmod]
  · have haz' : is_zero a = false := by
      rw [Bool.eq_false_iff, Ne, is_zero_iff]
      exact haz
    by_cases hb1 : value b = 1
    · refine ⟨a, [Trit.zero], ?_, ?_, ?_⟩
      · have he : tritsEq b [Trit.pos] = true := by
          rw [tritsEq_iff_value, value_single_pos]
          exact hb1
        simp [divmodFuel, hbz', haz', he]
      · rw [hb1, Int.tdiv_one]
      · rw [value_single_zero, hb1, Int.tmod_one]
    · have hb1' : tritsEq b [Trit.pos] = false := by
        rw [Bool.eq_false_iff, Ne, tritsEq_iff_value, value_single_pos]
        exact hb1
      have hbneg1' : tritsEq b [Trit.neg] = false := by
        rw [Bool.eq_false_iff, Ne, tritsEq_iff_value, value_single_neg]
        omega
      have hloop := divmodLoop_spec ((value a).toNat + 1) b a [Trit.zero]
        hbpos hanneg (by omega)
      refine ⟨(divmodLoop ((value a).toNat + 1) b a [Trit.zero]).1,
        (divmodLoop ((value a).toNat + 1) b a [Trit.zero]).2, ?_, ?_, ?_⟩
      · simp [divmodFuel, hbz', haz', hb1', hbneg1', hb, ha]
      · have heq : (value a) / (value b) =
            value (divmodLoop ((value a).toNat + 1) b a [Trit.zero]).1 ∧
            (value a) % (value b) =
            value (divmodLoop ((value a).toNat + 1) b a [Trit.zero]).2 := by
          rw [Int.ediv_emod_unique hbpos]
          refine ⟨?_, hloop.2.1, hloop.2.2⟩
          have := hloop.1
          rw [value_single_zero] at this
          linarith [this]
        rw [Int.tdiv_eq_ediv hanneg (le_of_lt hbpos), heq.1]
      · have heq : (value a) / (value b) =
            value (divmodLoop ((value a).toNat + 1) b a [Trit.zero]).1 ∧
            (value a) % (value b) =
            value (divmodLoop ((value a).toNat + 1) b a [Trit.zero]).2 := by
          rw [Int.ediv_emod_unique hbpos]
          refine ⟨?_, hloop.2.1, hloop.2.2⟩
          have := hloop.1
          rw [value_single_zero] at this
          linarith [this]
        rw [Int.tmod_eq_emod hanneg (le_of_lt hbpos), heq.2]

theorem is_negative_negTrits_of_neg {a : List Trit} (h : value a < 0) :
    is_negative (negTrits a) = false := by
  rw [Bool.eq_false_iff, Ne, is_negative_iff, value_negTrits]
  omega

theorem divmodFuel_posdiv (fuel : Nat) (a b : List Trit)
    (hfuel : 2 ≤ fuel) (hb : is_negative b = false) (hbz : value b ≠ 0) :
    ∃ q r, divmodFuel fuel a b = .ok (q, r) ∧
      value q = (value a).tdiv (value b) ∧ value r = (value a).tmod (value b) := by
  by_cases ha : is_negative a = false
  · exact divmodFuel_nonneg_nonneg fuel a b (by omega) ha hb hbz
  · have ha' : is_negative a = true := by
      simpa using ha
    have haneg : value a < 0 := (is_negative_iff a).mp ha'
    obtain ⟨f, rfl⟩ : ∃ f, fuel = f + 1 := ⟨fuel - 1, by omega⟩
    have hbpos : 0 < value b := by
      have := (is_negative_iff b).not.mp (by simp [hb])
      omega
    have hbz' : is_zero b = false := by
      rw [Bool.eq_false_iff, Ne, is_zero_iff]
      omega
    have haz' : is_zero a = false := by
      rw [Bool.eq_false_iff, Ne, is_zero_iff]
      omega
    by_cases hb1 : value b = 1
    · refine ⟨a, [Trit.zero], ?_, ?_, ?_⟩
      · have he : tritsEq b [Trit.pos] = true := by
          rw [tritsEq_iff_value, value_single_pos]
          exact hb1
        simp [divmodFuel, hbz', haz', he]
      · rw [hb1, Int.tdiv_one]
      · rw [value_single_zero, hb1, Int.tmod_one]
    · have hb1' : tritsEq b [Trit.pos] = false := by
        rw [Bool.eq_false_iff, Ne, tritsEq_iff_value, value_single_pos]
        exact hb1
      have hbneg1' : tritsEq b [Trit.neg] = false := by
        rw [Bool.eq_false_iff, Ne, tritsEq_iff_value, value_single_neg]
        omega
      have hnna : is_negative (negTrits a) = false := is_negative_negTrits_of_neg haneg
      obtain ⟨q, r, hdf, hq, hr⟩ :=
        divmodFuel_nonneg_nonneg f (negTrits a) b (by omega) hnna hb hbz
      rw [value_negTrits, Int.neg_tdiv] at hq
      rw [value_negTrits, neg_tmod_left] at hr
      refine ⟨negTrits q, negTrits r, ?_, ?_, ?_⟩
      · simp [divmodFuel, hbz', haz', hb1', hbneg1', hb, ha', hdf, Except.map]
      · rw [value_negTrits, hq]
        ring
      · rw [value_negTrits, hr]
        ring

theorem divmodFuel_spec (fuel : Nat) (a b : List Trit)
    (hfuel : 3 ≤ fuel) (hbz : value b ≠ 0) :
    ∃ q r, divmodFuel fuel a b = .ok (q, r) ∧
      value q = (value a).tdiv (value b) ∧ value r = (value a).tmod (value b) := by
  by_cases hb : is_negative b = false
  · exact divmodFuel_posdiv fuel a b (by omega) hb hbz
  · have hb' : is_negative b = true := by
      simpa using hb
    have hbneg : value b < 0 := (is_negative_iff b).mp hb'
    obtain ⟨f, rfl⟩ : ∃ f, fuel = f + 1 := ⟨fuel - 1, by omega⟩
    have hbz' : is_zero b = false := by
      rw [Bool.eq_false_iff, Ne, is_zero_iff]
      omega
    by_cases haz : value a = 0
    · refine ⟨[Trit.zero], [Trit.zero], ?_, ?_, ?_⟩
      · simp [divmodFuel, hbz', is_zero_iff, haz]
      · rw [value_single_zero, haz, Int.zero_tdiv]
      · rw [value_single_zero, haz, Int.zero_tmod]
    · have haz' : is_zero a = false := by
        rw [Bool.eq_false_iff, Ne, is_zero_iff]
        exact haz
      have hb1' : tritsEq b [Trit.pos] = false := by
        rw [Bool.eq_false_iff, Ne, tritsEq_iff_value, value_single_pos]
        omega
      by_cases hbm1 : value b = -1
      · refine ⟨negTrits a, [Trit.zero], ?_, ?_, ?_⟩
        · have he : tritsEq b [Trit.neg] = true := by
            rw [tritsEq_iff_value, value_single_neg]
            exact hbm1
          simp [divmodFuel, hbz', haz', hb1', he]
        · rw [value_negTrits, hbm1, show ((-1:Int) = -(1:Int)) from rfl,
            Int.tdiv_neg, Int.tdiv_one]
        · rw [value_single_zero, hbm1, show ((-1:Int) = -(1:Int)) from rfl,
            Int.tmod_neg, Int.tmod_one]
      · have hbneg1' : tritsEq b [Trit.neg] = false := by
          rw [Bool.eq_false_iff, Ne, tritsEq_iff_value, value_single_neg]
          exact hbm1
        have hnnb : is_negative (negTrits b) = false := is_negative_negTrits_of_neg hbneg
        have hnbz : value (negTrits b) ≠ 0 := by
          rw [value_negTrits]
          omega
        obtain ⟨q, r, hdf, hq, hr⟩ :=
          divmodFuel_posdiv f a (negTrits b) (by omega) hnnb hnbz
        rw [value_negTrits, Int.tdiv_neg] at hq
        rw [value_negTrits, Int.tmod_neg] at hr
        refine ⟨negTrits q, r, ?_, ?_, ?_⟩
        · simp [divmodFuel, hbz', haz', hb1', hbneg1', hb', hdf, Except.map]
        · rw [value_negTrits, hq]
          ring
        · exact hr

theorem order_le_iff (n : Int) (p : Nat) :
    order n ≤ p ↔ 2 * n.natAbs ≤ 3 ^ p :=
  (Nat.le_pow_iff_clog_le (by norm_num)).symm

theorem pow3_mod_two (k : Nat) : 3 ^ k % 2 = 1 := by
  rw [Nat.pow_mod]
  norm_num

theorem encodeAux_length (p : Nat) : ∀ n : Int, (encodeAux p n).length = p + 1 := by
  induction p with
  | zero => intro n; simp [encodeAux]
  | succ q ih => intro n; simp [encodeAux, ih]

theorem encodeAux_value (p : Nat) : ∀ n : Int,
    2 * n.natAbs < 3 ^ (p + 1) → value (encodeAux p n) = n := by
  induction p with
  | zero =>
      intro n h
      have hn : n = -1 ∨ n = 0 ∨ n = 1 := by omega
      have hone : ¬ order n ≤ 0 → 2 * n.natAbs ≥ 2 := by
        intro hc
        rw [order_le_iff] at hc
        omega
      rcases hn with rfl | rfl | rfl
      · have hcond : ¬ order (-1) ≤ 0 := by
          rw [order_le_iff]
          norm_num
        have hcond2 : order (-1) ≠ 0 := by omega
        simp [encodeAux, digitAt, hcond, hcond2]
        decide
      · simp [encodeAux, digitAt]
        decide
      · have hcond : ¬ order 1 ≤ 0 := by
          rw [order_le_iff]
          norm_num
        have hcond2 : order 1 ≠ 0 := by omega
        simp [encodeAux, digitAt, hcond, hcond2]
        decide
  | succ q ih =>
      intro n h
      have hcast : (((3:Nat) ^ (q + 1) : Nat) : Int) = (3:Int) ^ (q + 1) := by
        push_cast
        ring
      have hpow2 : (3:Nat) ^ (q + 2) = 3 * 3 ^ (q + 1) := by
        rw [pow_succ]
        ring
      have hodd := pow3_mod_two (q + 1)
      by_cases hd : n = 0 ∨ order n ≤ q + 1
      · have hdz : digitAt (q + 1) n = Trit.zero := by
          simp [digitAt, hd]
        have hsmall : 2 * n.natAbs < 3 ^ (q + 1) := by
          have hposp : 0 < (3:Nat) ^ (q + 1) := by positivity
          rcases hd with rfl | hle
          · simp
          · rw [order_le_iff] at hle
            omega
        have hrest := ih (n - (digitAt (q + 1) n).toInt * 3 ^ (q + 1)) (by
          rw [hdz]
          simp [Trit.toInt]
          exact hsmall)
        simp only [encodeAux]
        rw [value_cons, encodeAux_length, hrest, hdz]
        simp [Trit.toInt]
      · have hnz : n ≠ 0 := by
          intro hc
          exact hd (Or.inl hc)
        have hbig : 3 ^ (q + 1) < 2 * n.natAbs := by
          have : ¬ order n ≤ q + 1 := fun hc => hd (Or.inr hc)
          rw [order_le_iff] at this
          omega
        by_cases hneg : n < 0
        · have hdn : digitAt (q + 1) n = Trit.neg := by
            simp [digitAt, hd, hneg]
          have hrest := ih (n - (digitAt (q + 1) n).toInt * 3 ^ (q + 1)) (by
            rw [hdn]
            simp only [Trit.toInt]
            have : n - (-1) * 3 ^ (q + 1) = n + 3 ^ (q + 1) := by ring
            rw [this]
            omega)
          simp only [encodeAux]
          rw [value_cons, encodeAux_length, hrest, hdn]
          simp only [Trit.toInt]
          ring
        · have hpos : 0 < n := by omega
          have hdp : digitAt (q + 1) n = Trit.pos := by
            simp [digitAt, hd, hneg]
          have hrest := ih (n - (digitAt (q + 1) n).toInt * 3 ^ (q + 1)) (by
            rw [hdp]
            simp only [Trit.toInt]
            have : n - 1 * 3 ^ (q + 1) = n - 3 ^ (q + 1) := by ring
            rw [this]
            omega)
          simp only [encodeAux]
          rw [value_cons, encodeAux_length, hrest, hdp]
          simp only [Trit.toInt]
          ring

theorem value_intOfInt (n : Int) : value (intOfInt n) = n := by
  unfold intOfInt
  by_cases h : n = 0
  · rw [if_pos h, h]
    decide
  · rw [if_neg h]
    have hle : 2 * n.natAbs ≤ 3 ^ order n := (order_le_iff n (order n)).mp le_rfl
    have hodd := pow3_mod_two (order n)
    have hlt : 2 * n.natAbs < 3 ^ order n := by omega
    have hord1 : 1 ≤ order n := by
      by_contra hc
      have h0 : order n = 0 := by omega
      rw [h0] at hle
      simp at hle
      omega
    have hsucc : order n - 1 + 1 = order n := by omega
    exact encodeAux_value (order n - 1) n (by rw [hsucc]; exact hlt)

theorem order_pos {n : Int} (h : n ≠ 0) : 1 ≤ order n := by
  by_contra hc
  have h0 : order n ≤ 0 := by omega
  rw [order_le_iff] at h0
  simp at h0
  omega

theorem encodeAuxF_order (p : Nat) : ∀ n : Int, encodeAuxF order p n = encodeAux p n := by
  induction p with
  | zero => intro n; rfl
  | succ q ih =>
      intro n
      have hd : digitAtF order (q + 1) n = digitAt (q + 1) n := rfl
      simp only [encodeAuxF, encodeAux, hd, ih]

theorem intOfIntF_order (n : Int) : intOfIntF order n = intOfInt n := by
  unfold intOfIntF intOfInt
  by_cases h : n = 0
  · rw [if_pos h, if_pos h]
  · rw [if_neg h, if_neg h]
    obtain ⟨p, hp⟩ : ∃ p, order n = p + 1 := ⟨order n - 1, by
      have := order_pos h
      omega⟩
    rw [hp]
    exact encodeAuxF_order p n

theorem encodeAuxF_length (f : Int → Nat) (p : Nat) :
    ∀ n : Int, (encodeAuxF f p n).length = p + 1 := by
  induction p with
  | zero => intro n; simp [encodeAuxF]
  | succ q ih => intro n; simp [encodeAuxF, ih]

theorem intOfIntF_length (f : Int → Nat) {n : Int} (h : n ≠ 0) :
    (intOfIntF f n).length = f n := by
  unfold intOfIntF
  rw [if_neg h]
  cases hf : f n with
  | zero => simp
  | succ p => simp [encodeAuxF_length]

/-- C2 (code bug): `Int.order` computes
`int(math.ceil(math.log(2*abs(n), 3)))` in double precision, and
`2n = 3^37 - 1` and `2n = 3^37 + 1` convert to the same binary64 value
(`3^37 + 13`; the doubles there are 64 apart), so the source returns the
same trit count for n = 225141952945498681 = (3^37-1)/2 and
n = 225141952945498682 = (3^37+1)/2, although the true counts differ (37
and 38).  This theorem shows the bug breaks the claimed round-trip for
every count the floating-point computation could return: any order oracle
that agrees on the two inputs mis-encodes at least one of them, so
`value(Int(n)) ≠ n` there.  (With the idealized exact order the
round-trip does hold for all n: `value_intOfInt`.) -/
theorem C2_float_order_roundtrip_fails (f : Int → Nat)
    (hcollapse : f 225141952945498681 = f 225141952945498682) :
    value (intOfIntF f 225141952945498681) ≠ 225141952945498681 ∨
      value (intOfIntF f 225141952945498682) ≠ 225141952945498682 := by
  have h37 : (3:Nat) ^ 37 = 450283905890997363 := by norm_num
  by_cases hord : f 225141952945498682 ≤ 37
  · right
    intro hval
    have hlen : (intOfIntF f 225141952945498682).length = f 225141952945498682 :=
      intOfIntF_length f (by norm_num)
    have hb := value_bound (intOfIntF f 225141952945498682)
    rw [hlen, hval] at hb
    have hple : (3:Nat) ^ (f 225141952945498682) ≤ 3 ^ 37 :=
      Nat.pow_le_pow_right (by norm_num) hord
    have habs : (225141952945498682:Int).natAbs = 225141952945498682 := rfl
    omega
  · left
    intro hval
    have hne : (225141952945498681:Int) ≠ 0 := by norm_num
    have hf1 : 38 ≤ f 225141952945498681 := by omega
    obtain ⟨q, hq⟩ : ∃ q, f 225141952945498681 = (q + 37) + 1 :=
      ⟨f 225141952945498681 - 38, by omega⟩
    have hform : intOfIntF f 225141952945498681 =
        encodeAuxF f (q + 37) 225141952945498681 := by
      unfold intOfIntF
      rw [if_neg hne, hq]
    have hd : digitAtF f (q + 37) 225141952945498681 = Trit.pos := by
      unfold digitAtF
      rw [if_neg (by push_neg; exact ⟨by norm_num, by omega⟩),
        if_neg (by norm_num)]
    have hsplit : encodeAuxF f (q + 37) 225141952945498681 =
        Trit.pos :: encodeAuxF f (q + 36) (225141952945498681 - 3 ^ (q + 37)) := by
      show encodeAuxF f ((q + 36) + 1) 225141952945498681 = _
      rw [encodeAuxF, hd]
      simp [Trit.toInt]
    rw [hform, hsplit] at hval
    have hlenrest : (encodeAuxF f (q + 36)
        (225141952945498681 - 3 ^ (q + 37))).length = q + 37 :=
      encodeAuxF_length f (q + 36) _
    rw [value_cons, hlenrest] at hval
    have hb := value_bound (encodeAuxF f (q + 36)
      (225141952945498681 - 3 ^ (q + 37)))
    rw [hlenrest] at hb
    have hpow : (450283905890997363:Nat) ≤ 3 ^ (q + 37) :=
      calc (450283905890997363:Nat) = 3 ^ 37 := by norm_num
        _ ≤ 3 ^ (q + 37) := Nat.pow_le_pow_right (by norm_num) (by omega)
    have hcast : (((3:Nat) ^ (q + 37) : Nat) : Int) = (3:Int) ^ (q + 37) := by
      push_cast
      ring
    simp only [Trit.toInt] at hval
    omega

theorem divmodInt_correct (a b : List Trit) (hbz : value b ≠ 0) :
    ∃ q r, divmodInt a b = .ok (q, r) ∧
      value a = value q * value b + value r ∧
      value q = (value a).tdiv (value b) ∧
      value r = (value a).tmod (value b) := by
  obtain ⟨q, r, hdf, hq, hr⟩ := divmodFuel_spec 3 a b le_rfl hbz
  refine ⟨q, r, hdf, ?_, hq, hr⟩
  have htd := Int.tdiv_add_tmod (value a) (value b)
  rw [hq, hr]
  linarith [htd]

set_option maxRecDepth 4000 in
/-- Witness for C2: the failure theorem applied at the constant oracle 37
(the count glibc's rounding actually produces for both collapsed inputs),
plus a concrete kernel evaluation showing the 37-trit encoding of
n = (3^37+1)/2 has value n - 1, exactly the mis-encoding the source
exhibits. -/
theorem C2_float_order_roundtrip_fails_witness :
    (value (intOfIntF (fun _ => 37) 225141952945498681) ≠ 225141952945498681 ∨
      value (intOfIntF (fun _ => 37) 225141952945498682) ≠ 225141952945498682) ∧
    value (intOfIntF (fun _ => 37) 225141952945498682) = 225141952945498681 :=
  ⟨C2_float_order_roundtrip_fails (fun _ => 37) rfl, by decide⟩

/-- C3: for all 27 combinations of trits (a, b, carry-in), `Trit.add`
returns (sum, carry-out) with
`int(sum) + 3 * int(carry-out) = int(a) + int(b) + int(carry-in)`;
in particular adding `+`, `+`, `+` gives sum `0` with carry `+`. -/
theorem C3_trit_add_consistent :
    (∀ a b c : Trit,
      (Trit.add a b c).1.toInt + 3 * (Trit.add a b c).2.toInt =
        a.toInt + b.toInt + c.toInt) ∧
    Trit.add .pos .pos .pos = (.zero, .pos) :=
  ⟨trit_add_spec, by decide⟩

/-- C1: for Ints a, b with `value b ≠ 0`, `divmod(a, b)` returns (q, r)
with `value a = value q * value b + value r` and the quotient truncated
toward zero (`Int.tdiv`/`Int.tmod`, not floor division); in particular
`divmod(Int(-5), Int(2)) == (Int(-2), Int(-1))` and
`Int(7) // Int(-1) == Int(-7)` (`==` is the numeric `Trits` equality). -/
theorem C1_divmod_truncating :
    (∀ a b : List Trit, value b ≠ 0 →
      ∃ q r, divmodInt a b = .ok (q, r) ∧
        value a = value q * value b + value r ∧
        value q = (value a).tdiv (value b) ∧
        value r = (value a).tmod (value b)) ∧
    (∃ q r, divmodInt (intOfInt (-5)) (intOfInt 2) = .ok (q, r) ∧
      tritsEq q (intOfInt (-2)) = true ∧ tritsEq r (intOfInt (-1)) = true) ∧
    (∃ q, floordivInt (intOfInt 7) (intOfInt (-1)) = .ok q ∧
      tritsEq q (intOfInt (-7)) = true) := by
  refine ⟨divmodInt_correct, ?_, ?_⟩
  · obtain ⟨q, r, hdf, hsum, hq, hr⟩ :=
      divmodInt_correct (intOfInt (-5)) (intOfInt 2)
        (by rw [value_intOfInt]; norm_num)
    rw [value_intOfInt, value_intOfInt] at hq hr
    refine ⟨q, r, hdf, ?_, ?_⟩
    · rw [tritsEq_iff_value, value_intOfInt, hq]
      decide
    · rw [tritsEq_iff_value, value_intOfInt, hr]
      decide
  · obtain ⟨q, r, hdf, hsum, hq, hr⟩ :=
      divmodInt_correct (intOfInt 7) (intOfInt (-1))
        (by rw [value_intOfInt]; norm_num)
    rw [value_intOfInt, value_intOfInt] at hq
    refine ⟨q, ?_, ?_⟩
    · rw [floordivInt, hdf]
      rfl
    · rw [tritsEq_iff_value, value_intOfInt, hq]
      decide

/-- Witness for C1: the universally quantified part applied at
`a = Int(7)`, `b = Int(2)`, whose divisor value 2 is checked nonzero by
evaluation. -/
theorem C1_divmod_truncating_witness :
    ∃ q r, divmodInt (intOfInt 7) (intOfInt 2) = .ok (q, r) ∧
      value (intOfInt 7) = value q * value (intOfInt 2) + value r ∧
      value q = (value (intOfInt 7)).tdiv (value (intOfInt 2)) ∧
      value r = (value (intOfInt 7)).tmod (value (intOfInt 2)) :=
  C1_divmod_truncating.1 (intOfInt 7) (intOfInt 2)
    (by rw [value_intOfInt]; norm_num)

/-- C5: for every pair of Ints a, b with `value b = 0`, each of
`divmod(a, b)`, `a // b` and `a % b` fails with the zero-division error
(and not any other error kind). -/
theorem C5_division_by_zero (a b : List Trit) (h : value b = 0) :
    divmodInt a b = .error .zeroDivision ∧
    floordivInt a b = .error .zeroDivision ∧
    modInt a b = .error .zeroDivision := by
  have hz : is_zero b = true := (is_zero_iff b).mpr h
  have hdm : divmodInt a b = .error .zeroDivision := by
    show divmodFuel (2 + 1) a b = .error .zeroDivision
    rw [divmodFuel]
    simp [hz]
  exact ⟨hdm, by simp [floordivInt, hdm, Except.map],
    by simp [modInt, hdm, Except.map]⟩

/-- Witness for C5: dividing `Int(7)` by the zero value `Trits('00')`. -/
theorem C5_division_by_zero_witness :
    divmodInt (intOfInt 7) [Trit.zero, Trit.zero] = .error .zeroDivision ∧
    floordivInt (intOfInt 7) [Trit.zero, Trit.zero] = .error .zeroDivision ∧
    modInt (intOfInt 7) [Trit.zero, Trit.zero] = .error .zeroDivision :=
  C5_division_by_zero (intOfInt 7) [Trit.zero, Trit.zero] (by decide)

/-- C10: `Trits` equality holds between sequences of different lengths
whenever the zero-left-padded contents agree (e.g.
`Trits('+') == Trits('00+')`), while the hash key is the literal glyph
string; hence there are Trits a, b with `a == b` but different hash
keys. -/
theorem C10_eq_hash_mismatch :
    (∀ a b : List Trit,
        fitLength (max a.length b.length) a =
          fitLength (max a.length b.length) b →
        tritsEq a b = true) ∧
    tritsEq [Trit.pos] [Trit.zero, Trit.zero, Trit.pos] = true ∧
    glyphString [Trit.pos] ≠ glyphString [Trit.zero, Trit.zero, Trit.pos] := by
  refine ⟨?_, by decide, by decide⟩
  intro a b hpad
  rw [tritsEq_iff_value]
  have ha : value (fitLength (max a.length b.length) a) = value a :=
    value_fitLength (le_max_left _ _)
  have hb : value (fitLength (max a.length b.length) b) = value b :=
    value_fitLength (le_max_right _ _)
  rw [← ha, ← hb, hpad]

/-- Witness for C10: the padded-contents hypothesis discharged at
`Trits('+')` and `Trits('00+')`. -/
theorem C10_eq_hash_mismatch_witness :
    tritsEq [Trit.pos] [Trit.zero, Trit.zero, Trit.pos] = true ∧
    glyphString [Trit.pos] ≠ glyphString [Trit.zero, Trit.zero, Trit.pos] :=
  ⟨C10_eq_hash_mismatch.1 [Trit.pos] [Trit.zero, Trit.zero, Trit.pos] (by decide),
    C10_eq_hash_mismatch.2.2⟩

/-- C4: executing the jump_zero handler on a 6-trit instruction: if the
default register is numerically zero, `ip` is set to the 3-trit operand
(and nothing else changes); otherwise the whole state is unchanged, so the
auto-incremented `ip` stands. -/
theorem C4_jump_zero (s : T3State) (data : List Trit) (hlen : data.length = 6) :
    (value (s.regs drAddr) = 0 →
      jumpZeroT3 s data = { s with ip := getOperand data } ∧
        (getOperand data).length = 3) ∧
    (value (s.regs drAddr) ≠ 0 → jumpZeroT3 s data = s) := by
  have hop : (getOperand data).length = 3 := by
    simp [getOperand, hlen]
  constructor
  · intro h0
    have hz : is_zero (s.regs drAddr) = true := (is_zero_iff _).mpr h0
    refine ⟨?_, hop⟩
    simp [jumpZeroT3, hz, fitLength_of_length_eq hop]
  · intro h0
    have hz : is_zero (s.regs drAddr) = false := by
      rw [Bool.eq_false_iff, Ne, is_zero_iff]
      exact h0
    simp [jumpZeroT3, hz]

/-- Witness for C4: on the freshly reset machine (whose default register
is all zero) a jump_zero instruction with operand `+++` sets `ip` to
`+++`. -/
theorem C4_jump_zero_witness :
    jumpZeroT3 state0 [Trit.zero, Trit.pos, Trit.zero, Trit.pos, Trit.pos, Trit.pos] =
      { state0 with
        ip := getOperand [Trit.zero, Trit.pos, Trit.zero, Trit.pos, Trit.pos, Trit.pos] } ∧
    (getOperand [Trit.zero, Trit.pos, Trit.zero, Trit.pos, Trit.pos, Trit.pos]).length = 3 :=
  (C4_jump_zero state0
      [Trit.zero, Trit.pos, Trit.zero, Trit.pos, Trit.pos, Trit.pos] rfl).1
    (by decide)

/-- Counterexample for C6: after `reset()` the instruction pointer holds
`---` (the minimum address `ADDRESS_MIN`), not the all-zero sequence the
claim states. -/
theorem C6_reset_counterexample :
    ¬ (resetT3 state0).ip = [Trit.zero, Trit.zero, Trit.zero] := by
  decide

/-- C6 (amended): after `reset()`, `ir` and all 27 general registers hold
all-zero trit sequences, `ip` holds the minimum address `---`, the outputs
log is cleared, and the program memory is left unchanged. -/
theorem C6_reset_state (s : T3State) :
    (resetT3 s).ip = [Trit.neg, Trit.neg, Trit.neg] ∧
    (resetT3 s).ir = List.replicate 6 Trit.zero ∧
    (∀ a : Addr, (resetT3 s).regs a = List.replicate 6 Trit.zero) ∧
    (resetT3 s).program = s.program ∧
    (resetT3 s).outputs = [] :=
  ⟨rfl, rfl, fun _ => rfl, rfl, rfl⟩

/-- C7: when `ip` holds the maximum address `+++`, the increment step
wraps it to `---`: the 4-trit sum `+---` is truncated to its rightmost 3
trits by the fixed-width register write-back. -/
theorem C7_ip_wraparound (s : T3State) (h : s.ip = [Trit.pos, Trit.pos, Trit.pos]) :
    (incrementT3 s).ip = [Trit.neg, Trit.neg, Trit.neg] ∧
    addInts [Trit.pos, Trit.pos, Trit.pos] [Trit.pos] =
      [Trit.pos, Trit.neg, Trit.neg, Trit.neg] := by
  constructor
  · show fitLength 3 (addInts s.ip [Trit.pos]) = [Trit.neg, Trit.neg, Trit.neg]
    rw [h]
    decide
  · decide

/-- Witness for C7: the wraparound evaluated on a concrete machine state
whose `ip` is `+++`. -/
theorem C7_ip_wraparound_witness :
    (incrementT3 { state0 with ip := [Trit.pos, Trit.pos, Trit.pos] }).ip =
      [Trit.neg, Trit.neg, Trit.neg] ∧
    addInts [Trit.pos, Trit.pos, Trit.pos] [Trit.pos] =
      [Trit.pos, Trit.neg, Trit.neg, Trit.neg] :=
  C7_ip_wraparound { state0 with ip := [Trit.pos, Trit.pos, Trit.pos] } rfl

/-- C9: for a program of at most 162 trits, `set_program` leaves the
program memory holding exactly the program followed by zero trits up to
162 (nothing of any earlier program survives), every other state component
is untouched, and every 6-trit fetch window at or past the program's end
is all zero (the halt instruction). -/
theorem C9_set_program (s : T3State) (p : List Trit) (hlen : p.length ≤ 162) :
    ∃ s2, setProgram s p = .ok s2 ∧
      s2.program = p ++ List.replicate (162 - p.length) Trit.zero ∧
      s2.ip = s.ip ∧ s2.ir = s.ir ∧ s2.regs = s.regs ∧
      s2.outputs = s.outputs ∧ s2.stop = s.stop ∧
      (∀ k, p.length ≤ k → ∀ t ∈ (s2.program.drop k).take 6, t = Trit.zero) := by
  have hnot : ¬ p.length > 162 := by omega
  have hprog : p ++ (List.replicate 162 Trit.zero).drop p.length =
      p ++ List.replicate (162 - p.length) Trit.zero := by
    rw [List.drop_replicate]
  refine ⟨{ s with program := p ++ (List.replicate 162 Trit.zero).drop p.length },
    ?_, hprog, rfl, rfl, rfl, rfl, rfl, ?_⟩
  · simp [setProgram, hnot]
  · intro k hk t ht
    obtain ⟨i, rfl⟩ : ∃ i, k = p.length + i := ⟨k - p.length, by omega⟩
    rw [show ({ s with
          program := p ++ (List.replicate 162 Trit.zero).drop p.length } :
        T3State).program =
        p ++ (List.replicate 162 Trit.zero).drop p.length from rfl,
      List.drop_append, List.drop_replicate, List.drop_replicate,
      List.take_replicate] at ht
    exact List.eq_of_mem_replicate ht

/-- Witness for C9: loading the single-trit program `+` into the reset
machine. -/
theorem C9_set_program_witness :
    ∃ s2, setProgram state0 [Trit.pos] = .ok s2 ∧
      s2.program = [Trit.pos] ++ List.replicate (162 - 1) Trit.zero ∧
      s2.ip = state0.ip ∧ s2.ir = state0.ir ∧ s2.regs = state0.regs ∧
      s2.outputs = state0.outputs ∧ s2.stop = state0.stop ∧
      (∀ k, 1 ≤ k → ∀ t ∈ (s2.program.drop k).take 6, t = Trit.zero) := by
  have h := C9_set_program state0 [Trit.pos] (by norm_num)
  simpa using h

theorem stepT3_zero_program (s : T3State)
    (hprog : s.program = List.replicate 162 Trit.zero)
    (hip : s.ip = [Trit.neg, Trit.neg, Trit.neg]) :
    stepT3 s = .ok { s with
      stop := true
      ip := [Trit.neg, Trit.neg, Trit.zero]
      ir := List.replicate 6 Trit.zero } := by
  have hfetch : fetchT3 s = { s with ir := List.replicate 6 Trit.zero } := by
    unfold fetchT3
    rw [hip, hprog]
    rfl
  have hincr : incrementT3 { s with ir := List.replicate 6 Trit.zero } =
      { s with ir := List.replicate 6 Trit.zero
               ip := [Trit.neg, Trit.neg, Trit.zero] } := by
    unfold incrementT3
    rw [show ({ s with ir := List.replicate 6 Trit.zero } : T3State).ip = s.ip
        from rfl, hip]
    rfl
  unfold stepT3
  rw [hfetch, hincr]
  rfl

theorem runGo_succ (m : Nat) (s : T3State) :
    runGo (m + 1) s =
      if s.stop then .ok s
      else
        match stepT3 s with
        | .ok s2 => runGo m s2
        | .error e => .error e := rfl

/-- C8: on a T3 machine whose program memory is entirely zero trits and
whose `ip` is at its reset value `---`, `run()` terminates: the first
fetch/increment/execute cycle fetches the all-zero halt instruction and
sets the stop flag, so `run` returns the state after exactly that one
cycle, with `ip` advanced by exactly one address unit. -/
theorem C8_zero_program_halts (fuel : Nat) (s : T3State)
    (hfuel : 2 ≤ fuel)
    (hprog : s.program = List.replicate 162 Trit.zero)
    (hip : s.ip = [Trit.neg, Trit.neg, Trit.neg]) :
    ∃ s1, stepT3 { s with stop := false } = .ok s1 ∧
      runT3 fuel s = .ok s1 ∧
      s1.stop = true ∧
      s1.ip = [Trit.neg, Trit.neg, Trit.zero] ∧
      value s1.ip = value s.ip + 1 := by
  have hstep := stepT3_zero_program { s with stop := false }
    (by simpa using hprog) (by simpa using hip)
  obtain ⟨k, rfl⟩ : ∃ k, fuel = k + 2 := ⟨fuel - 2, by omega⟩
  refine ⟨_, hstep, ?_, rfl, rfl, ?_⟩
  · unfold runT3
    rw [show k + 2 = (k + 1) + 1 from rfl, runGo_succ]
    rw [if_neg (by simp), hstep]
    show runGo (k + 1) _ = _
    rw [runGo_succ]
    rw [if_pos (by simp)]
  · rw [hip]
    show value [Trit.neg, Trit.neg, Trit.zero] =
      value [Trit.neg, Trit.neg, Trit.neg] + 1
    decide

/-- Witness for C8: the run evaluated on the freshly constructed machine
(zero program memory, `ip = ---`) with fuel 2. -/
theorem C8_zero_program_halts_witness :
    ∃ s1, stepT3 { state0 with stop := false } = .ok s1 ∧
      runT3 2 state0 = .ok s1 ∧
      s1.stop = true ∧
      s1.ip = [Trit.neg, Trit.neg, Trit.zero] ∧
      value s1.ip = value state0.ip + 1 :=
  C8_zero_program_halts 2 state0 le_rfl rfl rfl
